import Mathlib

/-!
Verification of the retrieval-and-orchestration core of the `demo_agent`
repository, shallowly embedded in Lean 4.

The embedding covers:
* `src/agentic/rag/document_store.py` — tokenization (`TOKEN_PATTERN.findall`
  over the lower-cased text), `SimpleVectorStore` (`add_documents`,
  `similarity_search`, `_normalize`, `_cosine`), and `chunk_text`;
* `src/agentic/rag/pipeline.py` — `HealthcareRAGPipeline` and
  `RetrievedContext`;
* `src/agentic/langgraph_stub.py` — the offline `StateGraph` builder,
  `compile`, and `_CompiledGraph.invoke`;
* `src/agentic/orchestrator.py` — `HealthcareMultiAgentSystem._coerce_graph_state`.

Modelling conventions:
* Python strings are `String` / `List Char`; text processing is done on
  `List Char`.
* Python `float` arithmetic is idealized as exact real arithmetic.  The
  normalized vectors of the source divide term counts by `math.sqrt` of the
  sum of squared counts; since those values are irrational, the executable
  part of the model carries the integer data (term counts, dot products, sums
  of squares) and the real-valued semantics (`normVal`, `weight`, `cosineR`,
  `Score.sval`) is used only in the statements and proofs.
* Python `while` loops are embedded as fuelled recursion returning `Option`
  (`none` = the loop has not finished within the given fuel), so that
  non-termination of the source is expressible.
* Python exceptions are embedded as `Except`.
-/

namespace DemoAgent

/-! ## Characters: lower-casing, whitespace, the token pattern

Character classes are expressed through `Char.toNat` (ASCII codes:
`'A'..'Z'` = 65..90, `'a'..'z'` = 97..122, `'0'..'9'` = 48..57, `'_'` = 95,
`'-'` = 45, space = 32, tab..CR = 9..13), which keeps them kernel-evaluable
and lets arithmetic close the character-range side conditions.  The model is
faithful on ASCII text, which is all this repository's corpus, queries and
step names contain. -/

/-- ASCII lower-casing of one character, as `str.lower` acts on the ASCII
range. -/
def lowerChar (c : Char) : Char :=
  if 65 ≤ c.toNat ∧ c.toNat ≤ 90 then Char.ofNat (c.toNat + 32) else c

/-- `[a-zA-Z]` of `TOKEN_PATTERN`. -/
def isAlphaChar (c : Char) : Bool :=
  (97 ≤ c.toNat && c.toNat ≤ 122) || (65 ≤ c.toNat && c.toNat ≤ 90)

/-- `[a-zA-Z0-9_-]` of `TOKEN_PATTERN`. -/
def isTokenChar (c : Char) : Bool :=
  isAlphaChar c || (48 ≤ c.toNat && c.toNat ≤ 57) || c.toNat == 95 || c.toNat == 45

/-- Whitespace as recognized by Python `str.split()` / `str.strip()`
(the ASCII whitespace characters: space, tab, LF, VT, FF, CR). -/
def isWsChar (c : Char) : Bool :=
  c.toNat == 32 || (9 ≤ c.toNat && c.toNat ≤ 13)

abbrev Token := List Char

/-- The scanning loop of `re.findall` for
`TOKEN_PATTERN = [a-zA-Z][a-zA-Z0-9_-]+`: scan left to right; at an
alphabetic character greedily extend with token characters; a match needs at
least two characters and scanning resumes after it; on failure advance one
character.  `fuel` only bounds the recursion (every step consumes at least
one character, so `fuel = length` is exact — see `findTokens`). -/
def findTokensGo : ℕ → List Char → List Token
  | 0, _ => []
  | _ + 1, [] => []
  | fuel + 1, c :: rest =>
    if isAlphaChar c then
      let run := rest.takeWhile isTokenChar
      if run.isEmpty then findTokensGo fuel rest
      else (c :: run) :: findTokensGo fuel (rest.drop run.length)
    else findTokensGo fuel rest

/-- `TOKEN_PATTERN.findall`. -/
def findTokens (l : List Char) : List Token := findTokensGo l.length l

/-- `SimpleVectorStore._tokenize`: `TOKEN_PATTERN.findall(text.lower())`. -/
def tokenize (text : String) : List Token :=
  findTokens (text.data.map lowerChar)

/-! ## Term-count vectors and their real-valued semantics -/

/-- Number of occurrences of token `t` (the `Counter` entry of the source). -/
def tokCount (tokens : List Token) (t : Token) : ℕ := tokens.count t

/-- Sum of squared term counts: the square of the Euclidean norm used by
`SimpleVectorStore._normalize`. -/
def sumSq (tokens : List Token) : ℕ :=
  ∑ t ∈ tokens.toFinset, (tokens.count t) ^ 2

/-- Dot product of the raw term-count vectors of two token lists, iterating
over the distinct tokens of the first, as `SimpleVectorStore._cosine`
iterates over `first.keys()`. -/
def dotCount (q d : List Token) : ℕ :=
  ∑ t ∈ q.toFinset, q.count t * d.count t

/-- The divisor of `SimpleVectorStore._normalize`:
`math.sqrt(sum(v*v)) or 1.0` — the Euclidean norm, replaced by `1.0` when
it is `0.0`. -/
noncomputable def normVal (tokens : List Token) : ℝ :=
  if sumSq tokens = 0 then 1 else Real.sqrt (sumSq tokens)

/-- Normalized weight of token `t`, the value stored in the vector mapping
produced by `_normalize` (zero for tokens outside the mapping). -/
noncomputable def weight (tokens : List Token) (t : Token) : ℝ :=
  (tokens.count t : ℝ) / normVal tokens

/-- `SimpleVectorStore._cosine` on the normalized vectors of two token
lists: sum over the keys of the first vector of the products of weights. -/
noncomputable def cosineR (q d : List Token) : ℝ :=
  ∑ t ∈ q.toFinset, weight q t * weight d t

/-! ## The document store -/

/-- `DocumentChunk` (metadata dict as an association list). -/
structure DocumentChunk where
  identifier : String
  text : String
  metadata : List (String × String)
deriving DecidableEq, Repr

/-- `VectorizedDocument`: a chunk paired with its vector.  The stored
normalized vector is determined by the token list of the chunk text, so the
model carries the token list. -/
structure VectorizedDocument where
  chunk : DocumentChunk
  tokens : List Token
deriving DecidableEq, Repr

/-- `SimpleVectorStore.add_documents`: vectorize each chunk, silently
dropping chunks that tokenize to nothing, appending the rest in order. -/
def addDocuments (store : List VectorizedDocument) (chunks : List DocumentChunk) :
    List VectorizedDocument :=
  chunks.foldl
    (fun st c =>
      let toks := tokenize c.text
      if toks.isEmpty then st else st ++ [⟨c, toks⟩])
    store

/-- The score a stored document receives in `similarity_search`, carried in
exact integer form: the real cosine value is `num / √den` (see
`Score.sval`), with `num` the dot product of the raw count vectors and
`den` the product of the two sums of squares. -/
structure Score where
  num : ℕ
  den : ℕ
deriving DecidableEq, Repr

/-- Real value of a score: `num / √den`. -/
noncomputable def Score.sval (s : Score) : ℝ := (s.num : ℝ) / Real.sqrt s.den

/-- Score of document tokens `d` against query tokens `q`. -/
def mkScore (q d : List Token) : Score :=
  ⟨dotCount q d, sumSq q * sumSq d⟩

/-- Strict comparison of two scores by cross-multiplication; for scores with
positive `den` this agrees with comparison of the real values (see
`scoreLtB_iff_sval`). -/
def scoreLtB (s t : Score) : Bool :=
  decide (s.num ^ 2 * t.den < t.num ^ 2 * s.den)

/-- Score equality by cross-multiplication (equality of the real values for
scores with positive `den`). -/
def scoreEqB (s t : Score) : Bool :=
  decide (s.num ^ 2 * t.den = t.num ^ 2 * s.den)

/-! Python's `list.sort(key=..., reverse=True)` is a stable descending
sort.  It is embedded as a stable insertion sort: each element is inserted
into the already-sorted accumulator before the first strictly smaller
element, so elements with equal keys keep their original relative order. -/

/-- Insert `x` into `l` before the first element strictly below `x`. -/
def insertDesc (lt : α → α → Bool) (x : α) : List α → List α
  | [] => [x]
  | y :: ys => if lt y x then x :: y :: ys else y :: insertDesc lt x ys

/-- Stable descending sort (insertion sort), processing left to right. -/
def sortDesc (lt : α → α → Bool) (l : List α) : List α :=
  l.foldl (fun acc x => insertDesc lt x acc) []

/-- The `scored` list of `similarity_search`: every stored document paired
with its score against the query tokens. -/
def scoredOf (store : List VectorizedDocument) (toks : List Token) :
    List (Score × DocumentChunk) :=
  store.map (fun d => (mkScore toks d.tokens, d.chunk))

/-- `scored.sort(...); scored[:top_k]` followed by the `score > 0` filter of
the final list comprehension, still carrying the scores. -/
def searchRes (store : List VectorizedDocument) (toks : List Token) (topK : ℕ) :
    List (Score × DocumentChunk) :=
  ((sortDesc (fun a b => scoreLtB a.1 b.1) (scoredOf store toks)).take topK).filter
    (fun p => decide (0 < p.1.num))

/-- `SimpleVectorStore.similarity_search`: empty query tokenization yields
`[]`; otherwise score every stored document, sort the `(score, chunk)` pairs
descending by score (stably), truncate to `top_k`, and keep the chunks whose
score is strictly positive. -/
def similaritySearch (store : List VectorizedDocument) (query : String)
    (topK : ℕ) : List DocumentChunk :=
  let toks := tokenize query
  if toks.isEmpty then []
  else (searchRes store toks topK).map Prod.snd

/-! ## The chunker (`chunk_text`) -/

/-- The scan behind Python `str.split()` (maximal runs of non-whitespace
characters); `buf` holds the pending word reversed. -/
def splitWsGo (buf : List Char) : List Char → List (List Char)
  | [] => if buf.isEmpty then [] else [buf.reverse]
  | c :: rest =>
    if isWsChar c then
      if buf.isEmpty then splitWsGo [] rest else buf.reverse :: splitWsGo [] rest
    else splitWsGo (c :: buf) rest

/-- Python `str.split()`. -/
def splitWs (l : List Char) : List (List Char) := splitWsGo [] l

/-- Python `str.strip()`: drop leading and trailing whitespace. -/
def stripWs (l : List Char) : List Char :=
  ((l.dropWhile isWsChar).reverse.dropWhile isWsChar).reverse

/-- Python `" ".join`. -/
def joinSpace : List (List Char) → List Char
  | [] => []
  | [w] => w
  | w :: ws => w ++ ' ' :: joinSpace ws

/-- The `while start < len(words)` loop of `chunk_text`, fuelled.  Each
iteration emits `words[start:end]` with `end = min(len(words), start+chunk_size)`
and continues at `end` if `end >= len(words)`, else at `max(0, end-overlap)`
(truncated subtraction on `ℕ`, since the claims fix both parameters as
non-negative word counts).  `none` means the fuel ran out, i.e. the loop has
not terminated within `fuel` iterations. -/
def chunkLoop (words : List (List Char)) (chunkSize overlap : ℕ) :
    ℕ → ℕ → Option (List (List (List Char)))
  | 0, _ => none
  | fuel + 1, start =>
    if start < words.length then
      let e := min words.length (start + chunkSize)
      let chunk := (words.drop start).take (e - start)
      let next := if words.length ≤ e then e else e - overlap
      match chunkLoop words chunkSize overlap fuel next with
      | none => none
      | some rest => some (chunk :: rest)
    else some []

/-- `chunk_text` with explicit fuel: strip the text, return `[]` on an
all-whitespace text, otherwise split into words and run the window loop,
joining every window with single spaces. -/
def chunkTextF (fuel : ℕ) (text : String) (chunkSize overlap : ℕ) :
    Option (List String) :=
  let sanitized := stripWs text.data
  if sanitized.isEmpty then some []
  else
    (chunkLoop (splitWs sanitized) chunkSize overlap fuel 0).map
      (fun cs => cs.map (fun w => String.mk (joinSpace w)))

/-- `chunk_text` with fuel sufficient for every terminating run of the
source loop (one unit per iteration; starts within a terminating run are
strictly increasing positions in the word list, plus one final check). -/
def chunkText (text : String) (chunkSize overlap : ℕ) : Option (List String) :=
  chunkTextF ((splitWs (stripWs text.data)).length + 1) text chunkSize overlap

/-! ## The retrieval pipeline (`HealthcareRAGPipeline`) -/

/-- `RetrievedContext`. -/
structure RetrievedContext where
  question : String
  passages : List DocumentChunk
deriving DecidableEq, Repr

/-- A file system for `Path.exists` / `load_text_file`: an association list
from path to file content. -/
abbrev FileSystem := List (String × String)

/-- `load_text_file`: empty string when the path does not exist. -/
def loadTextFile (fs : FileSystem) (path : String) : String :=
  (fs.lookup path).getD ""

/-- The pipeline state: configuration plus the vector store. -/
structure RAGPipeline where
  knowledgeBasePath : String
  chunkSize : ℕ
  chunkOverlap : ℕ
  store : List VectorizedDocument
deriving Repr

/-- `HealthcareRAGPipeline.ingest_corpus` for a list of files: chunk each
existing file's content and add all chunks to the store.  `none` when the
chunking loop runs out of fuel. -/
def ingestCorpus (p : RAGPipeline) (fs : FileSystem) (files : List String) :
    Option RAGPipeline :=
  let rec collect : List (ℕ × String) → Option (List DocumentChunk)
    | [] => some []
    | (index, filePath) :: restFiles =>
      let content := loadTextFile fs filePath
      if content.isEmpty then collect restFiles
      else
        match chunkText content p.chunkSize p.chunkOverlap with
        | none => none
        | some pieces =>
          (collect restFiles).map fun rest =>
            (pieces.enum.map fun (chunkIndex, piece) =>
              DocumentChunk.mk (toString index ++ "-" ++ toString chunkIndex)
                piece [("source", filePath)]) ++ rest
  (collect files.enum).map fun chunks =>
    { p with store := addDocuments p.store chunks }

/-- `HealthcareRAGPipeline.__init__`: start with an empty store; if the
knowledge-base path exists, ingest it.  `none` when chunking the corpus
does not terminate within its fuel. -/
def mkPipeline (fs : FileSystem) (path : String) (chunkSize overlap : ℕ) :
    Option RAGPipeline :=
  let p : RAGPipeline := ⟨path, chunkSize, overlap, []⟩
  if (fs.lookup path).isSome then ingestCorpus p fs [path] else some p

/-- `HealthcareRAGPipeline.retrieve`. -/
def retrieve (p : RAGPipeline) (question : String) (topK : ℕ) : RetrievedContext :=
  ⟨question, similaritySearch p.store question topK⟩

/-! ## The offline LangGraph stub (`langgraph_stub.py`) -/

/-- The terminal sentinel `END = "__END__"`. -/
def END : String := "__END__"

/-- Errors raised by the stub (both are `ValueError` in the source; the
spec names them `ConfigurationError` and `UnknownStepError`). -/
inductive GraphError where
  | configuration
  | unknownStep (name : String)
deriving DecidableEq, Repr

/-- `_CompiledGraph`: entry point, node table, edge map.  Python dicts are
association lists here; the builder below keeps their keys unique. -/
structure CompiledGraph (σ : Type) where
  entryPoint : String
  nodes : List (String × (σ → σ))
  edges : List (String × String)

/-- The `while current and current != END` loop of `_CompiledGraph.invoke`,
fuelled: stop at a falsy (empty) or `END` step name; raise on a step name
with no registered node; otherwise run the node and follow the edge map
(`edges.get(current, END)`). -/
def invokeLoop (g : CompiledGraph σ) : ℕ → String → σ → Option (Except GraphError σ)
  | 0, _, _ => none
  | fuel + 1, current, state =>
    if current = "" ∨ current = END then some (Except.ok state)
    else
      match g.nodes.lookup current with
      | none => some (Except.error (GraphError.unknownStep current))
      | some fn => invokeLoop g fuel (((g.edges.lookup current).getD END)) (fn state)

/-- `_CompiledGraph.invoke` with explicit fuel. -/
def invoke (g : CompiledGraph σ) (fuel : ℕ) (state : σ) : Option (Except GraphError σ) :=
  invokeLoop g fuel g.entryPoint state

/-- The mutable `StateGraph` builder. -/
structure StateGraphB (σ : Type) where
  nodes : List (String × (σ → σ)) := []
  edges : List (String × String) := []
  entryPoint : Option String := none

/-- Replace-or-append update of an association list (Python dict
assignment). -/
def dictInsert (k : String) (v : β) : List (String × β) → List (String × β)
  | [] => [(k, v)]
  | (k', v') :: rest => if k' = k then (k, v) :: rest else (k', v') :: dictInsert k v rest

/-- `StateGraph.add_node` (last registration for a name wins). -/
def StateGraphB.addNode (b : StateGraphB σ) (name : String) (fn : σ → σ) : StateGraphB σ :=
  { b with nodes := dictInsert name fn b.nodes }

/-- `StateGraph.add_edge` (a later edge for the same source overwrites). -/
def StateGraphB.addEdge (b : StateGraphB σ) (source target : String) : StateGraphB σ :=
  { b with edges := dictInsert source target b.edges }

/-- `StateGraph.set_entry_point`. -/
def StateGraphB.setEntryPoint (b : StateGraphB σ) (name : String) : StateGraphB σ :=
  { b with entryPoint := some name }

/-- `StateGraph.compile`: fails when the entry point is unset or falsy
(`if not self.entry_point`), i.e. `none` or the empty string. -/
def compileGraph (b : StateGraphB σ) : Except GraphError (CompiledGraph σ) :=
  match b.entryPoint with
  | none => Except.error GraphError.configuration
  | some name =>
    if name = "" then Except.error GraphError.configuration
    else Except.ok ⟨name, b.nodes, b.edges⟩

/-! ## State coercion (`HealthcareMultiAgentSystem._coerce_graph_state`)

`HealthcareGraphState` is polymorphic in `V` (the `Any` values of the
`citizen_profile` dict) and `A` (the `AgentOutput` values, which the
coercion only passes through). -/

/-- The `HealthcareGraphState` dataclass of `orchestrator.py`. -/
structure HealthcareGraphState (V A : Type) where
  patientQuery : String
  citizenProfile : List (String × V)
  retrievedContext : RetrievedContext
  triage : Option A := none
  programEligibility : Option A := none
  facilityFinder : Option A := none
  followUp : Option A := none
  healthAnalytics : Option A := none
  knowledge : Option A := none

/-- The possible shapes of a `citizen_profile` value found in a mapping
state, following the `isinstance`/`hasattr` branches of
`_coerce_graph_state`:
* `pdict d` — `isinstance(raw, dict)`: copied;
* `pobj attrs` — an object with `__dict__`: `dict(vars(raw))`;
* `ppairs d` — any other value accepted by `dict(raw)` (an iterable of
  key/value pairs), yielding `d`;
* `pother` — any other value (e.g. an `int`), for which `dict(raw)` raises
  `TypeError`. -/
inductive ProfileValue (V : Type) where
  | pdict (d : List (String × V))
  | pobj (attrs : List (String × V))
  | ppairs (d : List (String × V))
  | pother
deriving DecidableEq

/-- A plain key/value mapping returned by a step function, as
`_coerce_graph_state` reads it with `state.get(...)`:
* `patientQuery = some s` — the entry is present and `str()` of its value is
  `s`; `none` — absent (`state.get("patient_query", "")` gives `""`);
* `citizenProfile = none` — the entry is absent or `None` (both make
  `state.get` return `None`);
* `retrievedContext = some c` — the entry is present and is an actual
  `RetrievedContext`; `none` — absent or not a `RetrievedContext`;
* the six agent fields are passed through by `state.get(...)`. -/
structure StateMapping (V A : Type) where
  patientQuery : Option String := none
  citizenProfile : Option (ProfileValue V) := none
  retrievedContext : Option RetrievedContext := none
  triage : Option A := none
  programEligibility : Option A := none
  facilityFinder : Option A := none
  followUp : Option A := none
  healthAnalytics : Option A := none
  knowledge : Option A := none

/-- A value returned by the graph backend, as `_coerce_graph_state`
distinguishes it: already the canonical dataclass, or a plain mapping
(within this repository the backend's node functions return one of these
two shapes). -/
inductive GraphStateValue (V A : Type) where
  | structured (s : HealthcareGraphState V A)
  | mapping (m : StateMapping V A)

/-- The exception `_coerce_graph_state` can propagate: the `TypeError`
raised by `dict(citizen_profile_raw)` on a non-convertible value. -/
inductive CoerceError where
  | typeError
deriving DecidableEq, Repr

/-- `HealthcareMultiAgentSystem._coerce_graph_state`: a
`HealthcareGraphState` is returned unchanged; a mapping is rebuilt into the
canonical structure, defaulting `patient_query` to `""`, `citizen_profile`
to `{}` and `retrieved_context` to an empty `RetrievedContext` over the
mapping's `patient_query`. -/
def coerceGraphState : GraphStateValue V A → Except CoerceError (HealthcareGraphState V A)
  | .structured s => .ok s
  | .mapping m =>
    let rc : RetrievedContext :=
      match m.retrievedContext with
      | some c => c
      | none => ⟨m.patientQuery.getD "", []⟩
    let profile : Except CoerceError (List (String × V)) :=
      match m.citizenProfile with
      | some (.pdict d) => .ok d
      | none => .ok []
      | some (.pobj attrs) => .ok attrs
      | some (.ppairs d) => .ok d
      | some .pother => .error .typeError
    profile.map fun cp =>
      { patientQuery := m.patientQuery.getD ""
        citizenProfile := cp
        retrievedContext := rc
        triage := m.triage
        programEligibility := m.programEligibility
        facilityFinder := m.facilityFinder
        followUp := m.followUp
        healthAnalytics := m.healthAnalytics
        knowledge := m.knowledge }

/-! # Theorems -/

/-- C7: compiling a graph on which `set_entry_point` was never called fails
with the configuration error, for every node table and edge map — the
result is the same error whatever the registered node functions are, so no
node function is executed by the failing compile call. -/
theorem c7_compile_without_entry_fails (σ : Type) (nodes : List (String × (σ → σ)))
    (edges : List (String × String)) :
    compileGraph { nodes := nodes, edges := edges, entryPoint := none } =
      Except.error GraphError.configuration := rfl

/-- C8 (amended): during `invoke`, whenever the current step name — the
entry or the target of a followed edge — is neither the empty string nor
the terminal sentinel `END` and has no registered node function, execution
fails immediately with `UnknownStepError` (a `ValueError` in the source),
before any further step function is called. -/
theorem c8_unknown_step_errors (σ : Type) (g : CompiledGraph σ) (fuel : ℕ)
    (current : String) (state : σ) (h1 : current ≠ "") (h2 : current ≠ END)
    (h3 : g.nodes.lookup current = none) :
    invokeLoop g (fuel + 1) current state =
      some (Except.error (GraphError.unknownStep current)) := by
  rw [invokeLoop, if_neg (by simp [h1, h2]), h3]

theorem c8_unknown_step_errors_witness :
    invokeLoop (σ := ℕ) ⟨"A", [("A", fun s => s + 1)], [("A", "X")]⟩ 1 "X" 5 =
      some (Except.error (GraphError.unknownStep "X")) :=
  c8_unknown_step_errors ℕ ⟨"A", [("A", fun s => s + 1)], [("A", "X")]⟩ 0 "X" 5
    (by decide) (by decide) rfl

/-- C8 (counterexample to the claim as stated): an edge can point to the
empty string, a name with no registered node function; `invoke` then stops
normally and returns the state instead of failing with `UnknownStepError`. -/
theorem c8_counterexample :
    (CompiledGraph.nodes (σ := ℕ) ⟨"A", [("A", fun s => s + 1)], [("A", "")]⟩).lookup "" =
        none ∧
      invoke (σ := ℕ) ⟨"A", [("A", fun s => s + 1)], [("A", "")]⟩ 2 0 =
        some (Except.ok 1) :=
  ⟨rfl, rfl⟩

/-- C2 (amended): a graph built with nodes `A`, `B`, `C`, edges
`A→B`, `B→C` and an edge from `C` to the terminal sentinel `END` (a name
with no registered node), compiled with entry `A`, terminates: `invoke`
applies the functions of `A`, `B`, `C` exactly once each, in that order,
and returns the state `C` produced (`fC (fB (fA s))`).  The final conjunct
instantiates the state with an execution trace, making the call order and
multiplicity explicit. -/
theorem c2_amended (σ : Type) (fA fB fC : σ → σ) (s : σ) (fuel : ℕ) :
    (∃ g, compileGraph
          (((((((({} : StateGraphB σ).addNode "A" fA).addNode "B" fB).addNode "C"
            fC).addEdge "A" "B").addEdge "B" "C").addEdge "C" END).setEntryPoint "A") =
          Except.ok g ∧
        invoke g (fuel + 4) s = some (Except.ok (fC (fB (fA s))))) ∧
      invoke (σ := List String)
          ⟨"A", [("A", fun t => t ++ ["A"]), ("B", fun t => t ++ ["B"]),
            ("C", fun t => t ++ ["C"])], [("A", "B"), ("B", "C"), ("C", END)]⟩
          (fuel + 4) [] =
        some (Except.ok ["A", "B", "C"]) :=
  ⟨⟨⟨"A", [("A", fA), ("B", fB), ("C", fC)], [("A", "B"), ("B", "C"), ("C", END)]⟩,
    rfl, rfl⟩, rfl⟩

/-- C2 (counterexample to the claim as stated): with an edge from `C` to an
arbitrary unregistered name (`"D"`), `invoke` does not return the state `C`
produced — it raises `UnknownStepError` after running `C`. -/
theorem c2_counterexample :
    invoke (σ := ℕ)
        ⟨"A", [("A", fun s => s + 1), ("B", fun s => s * 2), ("C", fun s => s + 5)],
          [("A", "B"), ("B", "C"), ("C", "D")]⟩ 10 0 =
        some (Except.error (GraphError.unknownStep "D")) ∧
      ∀ s : ℕ,
        invoke (σ := ℕ)
            ⟨"A", [("A", fun s => s + 1), ("B", fun s => s * 2), ("C", fun s => s + 5)],
              [("A", "B"), ("B", "C"), ("C", "D")]⟩ 10 0 ≠
          some (Except.ok s) := by
  refine ⟨rfl, fun s h => ?_⟩
  rw [show invoke (σ := ℕ)
      ⟨"A", [("A", fun s => s + 1), ("B", fun s => s * 2), ("C", fun s => s + 5)],
        [("A", "B"), ("B", "C"), ("C", "D")]⟩ 10 0 =
      some (Except.error (GraphError.unknownStep "D")) from rfl] at h
  exact absurd (Option.some.inj h) (by simp)

/-- C9 (counterexample to the claim as stated): a plain mapping whose
`citizen_profile` value is neither a dict, nor `None`, nor an object with
`__dict__`, nor an iterable of key/value pairs (e.g. an `int`) makes
`_coerce_graph_state` raise `TypeError` from `dict(citizen_profile_raw)`
instead of returning a coerced state. -/
theorem c9_counterexample :
    coerceGraphState (V := String) (A := Unit)
        (.mapping { citizenProfile := some .pother }) =
      Except.error CoerceError.typeError := rfl

/-- C9 (amended): `_coerce_graph_state` returns a `HealthcareGraphState`
unchanged; it converts every plain mapping whose `citizen_profile` entry is
absent, `None`, a dict, an object with `__dict__`, or an iterable of
key/value pairs into a canonical `HealthcareGraphState`, giving unset
fields neutral defaults — empty string for `patient_query`, empty dict for
`citizen_profile`, an empty `RetrievedContext` when `retrieved_context` is
absent or not a `RetrievedContext` — and passing the agent fields through;
on any other `citizen_profile` value it fails with `TypeError`. -/
theorem c9_amended (V A : Type) :
    (∀ s : HealthcareGraphState V A, coerceGraphState (.structured s) = Except.ok s) ∧
      (∀ m : StateMapping V A, m.citizenProfile ≠ some .pother →
        ∃ hgs, coerceGraphState (.mapping m) = Except.ok hgs ∧
          hgs.patientQuery = m.patientQuery.getD "" ∧
          (m.citizenProfile = none → hgs.citizenProfile = []) ∧
          (∀ d, m.citizenProfile = some (.pdict d) → hgs.citizenProfile = d) ∧
          (∀ d, m.citizenProfile = some (.pobj d) → hgs.citizenProfile = d) ∧
          (∀ d, m.citizenProfile = some (.ppairs d) → hgs.citizenProfile = d) ∧
          (m.retrievedContext = none →
            hgs.retrievedContext = ⟨m.patientQuery.getD "", []⟩) ∧
          (∀ c, m.retrievedContext = some c → hgs.retrievedContext = c) ∧
          hgs.triage = m.triage ∧ hgs.programEligibility = m.programEligibility ∧
          hgs.facilityFinder = m.facilityFinder ∧ hgs.followUp = m.followUp ∧
          hgs.healthAnalytics = m.healthAnalytics ∧ hgs.knowledge = m.knowledge) ∧
      ∀ m : StateMapping V A, m.citizenProfile = some .pother →
        coerceGraphState (.mapping m) = Except.error CoerceError.typeError := by
  refine ⟨fun s => rfl, fun m hm => ?_, fun m hm => ?_⟩
  · obtain ⟨pq, cp, rc, t1, t2, t3, t4, t5, t6⟩ := m
    rcases cp with - | pv
    · rcases rc with - | c <;>
        refine ⟨_, rfl, rfl, ?_, ?_, ?_, ?_, ?_, ?_, rfl, rfl, rfl, rfl, rfl, rfl⟩ <;>
        simp
    · rcases pv with d | d | d | -
      · rcases rc with - | c <;>
          refine ⟨_, rfl, rfl, ?_, ?_, ?_, ?_, ?_, ?_, rfl, rfl, rfl, rfl, rfl, rfl⟩ <;>
          simp
      · rcases rc with - | c <;>
          refine ⟨_, rfl, rfl, ?_, ?_, ?_, ?_, ?_, ?_, rfl, rfl, rfl, rfl, rfl, rfl⟩ <;>
          simp
      · rcases rc with - | c <;>
          refine ⟨_, rfl, rfl, ?_, ?_, ?_, ?_, ?_, ?_, rfl, rfl, rfl, rfl, rfl, rfl⟩ <;>
          simp
      · exact absurd rfl hm
  · obtain ⟨pq, cp, rc, t1, t2, t3, t4, t5, t6⟩ := m
    cases hm
    rfl

theorem c9_amended_witness :
    ∃ hgs : HealthcareGraphState String Unit,
      coerceGraphState (.mapping {}) = Except.ok hgs ∧ hgs.patientQuery = "" ∧
        hgs.citizenProfile = [] := by
  obtain ⟨hgs, h1, h2, h3, -⟩ := (c9_amended String Unit).2.1 {} (by decide)
  exact ⟨hgs, h1, by simpa using h2, h3 rfl⟩

/-- With `chunk_size = overlap = 1` and more than one word, the loop of
`chunk_text` never advances: `end = start + 1 < len`, so the next start is
`max(0, end - overlap) = start`, and the loop repeats forever.  In the
fuelled model: the loop returns `none` for every fuel. -/
theorem chunkLoop_stuck (words : List (List Char)) (h : 1 < words.length) :
    ∀ fuel, chunkLoop words 1 1 fuel 0 = none := by
  intro fuel
  induction fuel with
  | zero => rfl
  | succ n ih =>
    rw [chunkLoop, if_pos (by omega)]
    have he : min words.length (0 + 1) = 1 := min_eq_right (by omega)
    simp only [he]
    rw [if_neg (by omega)]
    simp [ih]

/-- C3: `chunk_text` does not terminate on every non-negative
`chunk_size`/`overlap` pair.  On the three-word text `"alpha beta gamma"`
with `chunk_size = 1` and `overlap = 1` (the violated case
`overlap ≥ chunk_size`), the loop never finishes: for every fuel the
fuelled model still has not returned.  The spec requires termination here,
so this is a bug in the code. -/
theorem c3_chunk_text_nonterminating :
    ∀ fuel, chunkTextF fuel "alpha beta gamma" 1 1 = none := by
  intro fuel
  have h1 : (stripWs "alpha beta gamma".data).isEmpty = false := by decide
  have h2 : 1 < (splitWs (stripWs "alpha beta gamma".data)).length := by decide
  rw [chunkTextF]
  simp only [h1, Bool.false_eq_true, if_false, chunkLoop_stuck _ h2 fuel]
  rfl

/-! ## Vector norm lemmas -/

theorem sumSq_eq_zero_iff (toks : List Token) : sumSq toks = 0 ↔ toks = [] := by
  constructor
  · intro h0
    match htk : toks with
    | [] => rfl
    | a :: rest =>
      exfalso
      have ha : a ∈ (a :: rest).toFinset := by simp
      have hle : ((a :: rest).count a) ^ 2 ≤ sumSq (a :: rest) := by
        rw [sumSq]
        exact Finset.single_le_sum (f := fun t => (a :: rest).count t ^ 2)
          (fun t _ => Nat.zero_le _) ha
      have hc : 1 ≤ (a :: rest).count a := by simp [List.count_cons]
      have hsq : 1 ≤ (a :: rest).count a ^ 2 := Nat.one_le_pow _ _ (by omega)
      omega
  · rintro rfl
    simp [sumSq]

theorem normVal_pos (toks : List Token) : 0 < normVal toks := by
  rw [normVal]
  split
  · exact one_pos
  · exact Real.sqrt_pos.mpr (by positivity)

theorem weight_nonneg (toks : List Token) (t : Token) : 0 ≤ weight toks t :=
  div_nonneg (Nat.cast_nonneg _) (le_of_lt (normVal_pos toks))

/-- The sum of squared normalized weights is `1` whenever the token list is
non-empty (`_normalize` divides each count by the Euclidean norm). -/
theorem sum_weight_sq (toks : List Token) (h : toks ≠ []) :
    ∑ t ∈ toks.toFinset, (weight toks t) ^ 2 = 1 := by
  have hS : sumSq toks ≠ 0 := fun h0 => h ((sumSq_eq_zero_iff toks).mp h0)
  have hN : normVal toks = Real.sqrt (sumSq toks) := if_neg hS
  have hterm : ∀ t ∈ toks.toFinset,
      (weight toks t) ^ 2 = ((toks.count t : ℝ)) ^ 2 / (sumSq toks : ℝ) := by
    intro t _
    rw [weight, div_pow, hN, Real.sq_sqrt (Nat.cast_nonneg _)]
  rw [Finset.sum_congr rfl hterm, ← Finset.sum_div]
  have hsum : ∑ t ∈ toks.toFinset, ((toks.count t : ℝ)) ^ 2 = (sumSq toks : ℝ) := by
    rw [sumSq]
    push_cast
    rfl
  rw [hsum, div_self (by exact_mod_cast hS)]

/-- C5 (amended): for every text whose tokenization is non-empty, the
vector produced by vectorization (tokenize, then `_normalize`) has L2 norm
equal to 1: the sum of its squared weights is exactly 1 (float arithmetic
idealized as real arithmetic). -/
theorem c5_amended (text : String) (h : tokenize text ≠ []) :
    ∑ t ∈ (tokenize text).toFinset, (weight (tokenize text) t) ^ 2 = 1 :=
  sum_weight_sq _ h

theorem c5_amended_witness :
    ∑ t ∈ (tokenize "fever").toFinset, (weight (tokenize "fever") t) ^ 2 = 1 :=
  c5_amended "fever" (by decide)

/-- C5 (counterexample to the claim as stated): the text `"a"` is non-empty
but tokenizes to nothing (the token pattern needs at least two characters),
so its vector is the empty mapping and the sum of squared weights is `0`,
not `1`. -/
theorem c5_counterexample :
    "a" ≠ "" ∧
      ¬ (∑ t ∈ (tokenize "a").toFinset, (weight (tokenize "a") t) ^ 2 = 1) := by
  refine ⟨by decide, ?_⟩
  rw [show tokenize "a" = [] from by decide]
  simp

/-! ## Tokenization of single-character words -/

theorem isWsChar_eq_false_of_isAlphaChar_lowerChar (c : Char)
    (h : isAlphaChar (lowerChar c) = true) : isWsChar c = false := by
  rw [lowerChar] at h
  split at h
  · simp only [isWsChar, Bool.or_eq_false_iff, beq_eq_false_iff_ne, Bool.and_eq_false_iff,
      decide_eq_false_iff_not]
    omega
  · simp only [isAlphaChar, Bool.or_eq_true, Bool.and_eq_true, decide_eq_true_eq] at h
    simp only [isWsChar, Bool.or_eq_false_iff, beq_eq_false_iff_ne, Bool.and_eq_false_iff,
      decide_eq_false_iff_not]
    omega

theorem isWsChar_eq_false_of_isTokenChar_lowerChar (c : Char)
    (h : isTokenChar (lowerChar c) = true) : isWsChar c = false := by
  rw [lowerChar] at h
  split at h
  · simp only [isWsChar, Bool.or_eq_false_iff, beq_eq_false_iff_ne, Bool.and_eq_false_iff,
      decide_eq_false_iff_not]
    omega
  · simp only [isTokenChar, isAlphaChar, Bool.or_eq_true, Bool.and_eq_true,
      decide_eq_true_eq, beq_iff_eq] at h
    simp only [isWsChar, Bool.or_eq_false_iff, beq_eq_false_iff_ne, Bool.and_eq_false_iff,
      decide_eq_false_iff_not]
    omega

/-- If no character is an alphabetic character directly followed by a token
character, the scan finds no token (a match needs two such characters). -/
theorem findTokensGo_eq_nil :
    ∀ (fuel : ℕ) (l : List Char),
      l.Chain' (fun a b => ¬(isAlphaChar a = true ∧ isTokenChar b = true)) →
      findTokensGo fuel l = [] := by
  intro fuel
  induction fuel with
  | zero => intro l _; rfl
  | succ n ih =>
    intro l hl
    match l with
    | [] => rfl
    | c :: rest =>
      rw [findTokensGo]
      by_cases hc : isAlphaChar c = true
      · have hrun : rest.takeWhile isTokenChar = [] := by
          match rest with
          | [] => rfl
          | d :: r' =>
            have hd : ¬(isAlphaChar c = true ∧ isTokenChar d = true) :=
              (List.chain'_cons.mp hl).1
            have : isTokenChar d = false := by
              rcases Bool.eq_false_or_eq_true (isTokenChar d) with h | h
              · exact absurd ⟨hc, h⟩ hd
              · exact h
            simp [List.takeWhile, this]
        rw [if_pos hc]
        simp only [hrun, List.isEmpty_nil, if_true]
        exact ih rest hl.tail
      · rw [if_neg hc]
        exact ih rest hl.tail

/-- A pending word of two or more characters forces a word of length at
least two in the output of the split scan. -/
theorem splitWsGo_long_buf :
    ∀ (l buf : List Char), 2 ≤ buf.length →
      ∃ w ∈ splitWsGo buf l, 2 ≤ w.length := by
  intro l
  induction l with
  | nil =>
    intro buf hb
    refine ⟨buf.reverse, ?_, by simpa using hb⟩
    rw [splitWsGo]
    have : buf.isEmpty = false := by
      cases buf with
      | nil => simp at hb
      | cons c cs => rfl
    simp [this]
  | cons c rest ih =>
    intro buf hb
    rw [splitWsGo]
    by_cases hc : isWsChar c = true
    · have : buf.isEmpty = false := by
        cases buf with
        | nil => simp at hb
        | cons b bs => rfl
      rw [if_pos hc, if_neg (by simp [this])]
      exact ⟨buf.reverse, by simp, by simpa using hb⟩
    · rw [if_neg hc]
      obtain ⟨w, hw, hlen⟩ := ih (c :: buf) (by simp; omega)
      exact ⟨w, hw, hlen⟩

/-- If all words produced from a one-character pending buffer have length
one, the next character cannot be a non-whitespace character. -/
theorem ws_head_of_short_words (c : Char) (rest buf : List Char)
    (hb : buf.length = 1)
    (h : ∀ w ∈ splitWsGo buf (c :: rest), w.length = 1) : isWsChar c = true := by
  rcases Bool.eq_false_or_eq_true (isWsChar c) with hc | hc
  · exact hc
  · exfalso
    have hgo : splitWsGo buf (c :: rest) = splitWsGo (c :: buf) rest := by
      rw [splitWsGo, if_neg (by simp [hc])]
    obtain ⟨w, hw, hlen⟩ := splitWsGo_long_buf rest (c :: buf) (by simp; omega)
    rw [← hgo] at hw
    have := h w hw
    omega

/-- If every word of a text has length one, no two consecutive characters
are both non-whitespace. -/
theorem chain_ws_of_short_words :
    ∀ l : List Char, (∀ w ∈ splitWs l, w.length = 1) →
      l.Chain' (fun a b => isWsChar a = true ∨ isWsChar b = true)
  | [] => fun _ => List.chain'_nil
  | c :: rest => by
    intro h
    by_cases hc : isWsChar c = true
    · have hgo : splitWs (c :: rest) = splitWs rest := by
        rw [splitWs, splitWsGo, if_pos hc]
        rfl
      rw [hgo] at h
      have htail := chain_ws_of_short_words rest h
      cases rest with
      | nil => exact List.chain'_singleton c
      | cons d r' => exact List.chain'_cons.mpr ⟨Or.inl hc, htail⟩
    · match rest with
      | [] => exact List.chain'_singleton c
      | d :: r' =>
        have hd : isWsChar d = true := by
          refine ws_head_of_short_words d r' [c] rfl ?_
          intro w hw
          refine h w ?_
          rw [splitWs, splitWsGo, if_neg (by simp [hc])]
          exact hw
        have hr' : ∀ w ∈ splitWs r', w.length = 1 := by
          intro w hw
          refine h w ?_
          rw [splitWs, splitWsGo, if_neg (by simp [hc]), splitWsGo, if_pos hd,
            if_neg (by simp)]
          exact List.mem_cons_of_mem _ hw
        have htail := chain_ws_of_short_words r' hr'
        refine List.chain'_cons.mpr ⟨Or.inr hd, ?_⟩
        cases r' with
        | nil => exact List.chain'_singleton d
        | cons e r'' => exact List.chain'_cons.mpr ⟨Or.inl hd, htail⟩
termination_by l => l.length
decreasing_by
  · simp only [List.length_cons]; omega
  · simp only [List.length_cons]; omega

/-- C10: a single alphabetic character is never a token — the token pattern
requires an alphabetic character followed by at least one more token
character.  For every text consisting only of one-character words,
vectorization yields the empty vector, `add_documents` silently drops such
a chunk, and `similarity_search` with such a query returns the empty
sequence. -/
theorem c10_single_char_words (text : String)
    (h : ∀ w ∈ splitWs text.data, w.length = 1) :
    tokenize text = [] ∧
      (∀ (store : List VectorizedDocument) (c : DocumentChunk), c.text = text →
        addDocuments store [c] = store) ∧
      ∀ (store : List VectorizedDocument) (k : ℕ), similaritySearch store text k = [] := by
  have hchain := chain_ws_of_short_words text.data h
  have htok : tokenize text = [] := by
    rw [tokenize, findTokens]
    refine findTokensGo_eq_nil _ _ ?_
    rw [List.chain'_map]
    refine hchain.imp ?_
    rintro a b hab ⟨ha, hb⟩
    rcases hab with hws | hws
    · rw [isWsChar_eq_false_of_isAlphaChar_lowerChar a ha] at hws
      exact Bool.false_ne_true hws
    · rw [isWsChar_eq_false_of_isTokenChar_lowerChar b hb] at hws
      exact Bool.false_ne_true hws
  refine ⟨htok, fun store c hcx => ?_, fun store k => ?_⟩
  · simp [addDocuments, hcx, htok]
  · simp [similaritySearch, htok]

theorem c10_single_char_words_witness :
    tokenize "a b c" = [] ∧ similaritySearch [] "a b c" 3 = [] := by
  obtain ⟨h1, -, h3⟩ := c10_single_char_words "a b c" (by decide)
  exact ⟨h1, h3 [] 3⟩

/-! ## The stable descending sort -/

theorem insertDesc_shape {α : Type} (lt : α → α → Bool) (x : α) (l : List α) :
    ∃ pre suf, l = pre ++ suf ∧ insertDesc lt x l = pre ++ x :: suf ∧
      (∀ y ∈ pre, lt y x = false) ∧ ∀ z, suf.head? = some z → lt z x = true := by
  induction l with
  | nil => exact ⟨[], [], rfl, rfl, by simp, by simp⟩
  | cons y ys ih =>
    by_cases h : lt y x = true
    · refine ⟨[], y :: ys, rfl, by rw [insertDesc, if_pos h]; rfl, by simp, ?_⟩
      intro z hz
      rw [List.head?_cons, Option.some.injEq] at hz
      rw [← hz]
      exact h
    · obtain ⟨pre, suf, h1, h2, h3, h4⟩ := ih
      refine ⟨y :: pre, suf, by simp [h1], ?_, ?_, h4⟩
      · rw [insertDesc, if_neg h, h2]
        rfl
      · intro z hz
        rcases List.mem_cons.mp hz with rfl | hz
        · exact Bool.eq_false_iff.mpr h
        · exact h3 z hz

theorem insertDesc_perm {α : Type} (lt : α → α → Bool) (x : α) (l : List α) :
    (insertDesc lt x l).Perm (x :: l) := by
  obtain ⟨pre, suf, h1, h2, -, -⟩ := insertDesc_shape lt x l
  rw [h2, h1]
  exact List.perm_middle

theorem foldl_insertDesc_perm {α : Type} (lt : α → α → Bool) :
    ∀ (l acc : List α),
      (List.foldl (fun acc x => insertDesc lt x acc) acc l).Perm (acc ++ l) := by
  intro l
  induction l with
  | nil => intro acc; simp
  | cons x xs ih =>
    intro acc
    refine ((ih (insertDesc lt x acc)).trans ?_)
    refine ((insertDesc_perm lt x acc).append_right xs).trans ?_
    exact List.perm_middle.symm

theorem sortDesc_perm {α : Type} (lt : α → α → Bool) (l : List α) :
    (sortDesc lt l).Perm l := by
  have h := foldl_insertDesc_perm lt l []
  rw [sortDesc]
  simpa using h

theorem insertDesc_pairwise {α : Type} (lt : α → α → Bool) (v : α → ℝ) (x : α)
    (acc : List α)
    (compat : ∀ a ∈ x :: acc, ∀ b ∈ x :: acc, (lt a b = true ↔ v a < v b))
    (hacc : acc.Pairwise (fun a b => lt a b = false)) :
    (insertDesc lt x acc).Pairwise (fun a b => lt a b = false) := by
  obtain ⟨pre, suf, h1, h2, h3, h4⟩ := insertDesc_shape lt x acc
  have hmem : ∀ z ∈ suf, z ∈ x :: acc := fun z hz => by
    simp [h1, List.mem_append, hz]
  have hmemp : ∀ z ∈ pre, z ∈ x :: acc := fun z hz => by
    simp [h1, List.mem_append, hz]
  rw [h1, List.pairwise_append] at hacc
  obtain ⟨hpre, hsuf, hcross⟩ := hacc
  have hvsuf : ∀ z ∈ suf, v z < v x := by
    intro z hz
    obtain ⟨z0, suf', rfl⟩ : ∃ z0 suf', suf = z0 :: suf' := by
      cases suf with
      | nil => exact absurd hz (List.not_mem_nil z)
      | cons a b => exact ⟨a, b, rfl⟩
    have hz0 : lt z0 x = true := h4 z0 rfl
    have hz0v : v z0 < v x := (compat z0 (hmem z0 (by simp)) x (by simp)).mp hz0
    rcases List.mem_cons.mp hz with rfl | hz'
    · exact hz0v
    · have hzz0 : lt z0 z = false := by
        rw [List.pairwise_cons] at hsuf
        exact hsuf.1 z hz'
      have hvz : ¬ v z0 < v z := fun hc => by
        have := (compat z0 (hmem z0 (by simp)) z (hmem z (by simp [hz']))).mpr hc
        rw [this] at hzz0
        exact Bool.true_eq_false.mp hzz0
      exact lt_of_le_of_lt (not_lt.mp hvz) hz0v
  have hxsuf : ∀ z ∈ suf, lt x z = false := fun z hz =>
    Bool.eq_false_iff.mpr fun hc =>
      lt_asymm (hvsuf z hz) ((compat x (by simp) z (hmem z hz)).mp hc)
  rw [h2, List.pairwise_append]
  refine ⟨hpre, ?_, ?_⟩
  · rw [List.pairwise_cons]
    exact ⟨hxsuf, hsuf⟩
  · intro a ha b hb
    rcases List.mem_cons.mp hb with rfl | hb'
    · exact h3 a ha
    · exact hcross a ha b hb'

theorem insertDesc_filter {α : Type} (lt : α → α → Bool) (v : α → ℝ) (x : α)
    (acc : List α) (p : α → Bool)
    (compat : ∀ a ∈ x :: acc, ∀ b ∈ x :: acc, (lt a b = true ↔ v a < v b))
    (hacc : acc.Pairwise (fun a b => lt a b = false))
    (hcl : ∀ a ∈ acc, p a = true → p x = true → v a = v x) :
    (insertDesc lt x acc).filter p =
      if p x then acc.filter p ++ [x] else acc.filter p := by
  obtain ⟨pre, suf, h1, h2, h3, h4⟩ := insertDesc_shape lt x acc
  have hmem : ∀ z ∈ suf, z ∈ x :: acc := fun z hz => by
    simp [h1, List.mem_append, hz]
  rw [h1, List.pairwise_append] at hacc
  obtain ⟨hpre, hsuf, hcross⟩ := hacc
  have hvsuf : ∀ z ∈ suf, v z < v x := by
    intro z hz
    obtain ⟨z0, suf', rfl⟩ : ∃ z0 suf', suf = z0 :: suf' := by
      cases suf with
      | nil => exact absurd hz (List.not_mem_nil z)
      | cons a b => exact ⟨a, b, rfl⟩
    have hz0 : lt z0 x = true := h4 z0 rfl
    have hz0v : v z0 < v x := (compat z0 (hmem z0 (by simp)) x (by simp)).mp hz0
    rcases List.mem_cons.mp hz with rfl | hz'
    · exact hz0v
    · have hzz0 : lt z0 z = false := by
        rw [List.pairwise_cons] at hsuf
        exact hsuf.1 z hz'
      have hvz : ¬ v z0 < v z := fun hc => by
        have := (compat z0 (hmem z0 (by simp)) z (hmem z (by simp [hz']))).mpr hc
        rw [this] at hzz0
        exact Bool.true_eq_false.mp hzz0
      exact lt_of_le_of_lt (not_lt.mp hvz) hz0v
  rw [h2, List.filter_append, h1, List.filter_append]
  by_cases hpx : p x = true
  · have hsufnil : suf.filter p = [] := by
      rw [List.filter_eq_nil_iff]
      intro z hz hpz
      have hmz : z ∈ acc := by simp [h1, List.mem_append, hz]
      have := hcl z hmz hpz hpx
      exact absurd this (ne_of_lt (hvsuf z hz))
    rw [if_pos hpx]
    simp [List.filter_cons, hpx, hsufnil]
  · have hpx' : p x = false := Bool.eq_false_iff.mpr hpx
    rw [if_neg hpx]
    simp [List.filter_cons, hpx']

theorem foldl_insertDesc_props {α : Type} (lt : α → α → Bool) (v : α → ℝ) :
    ∀ (l acc : List α),
      (∀ a ∈ acc ++ l, ∀ b ∈ acc ++ l, (lt a b = true ↔ v a < v b)) →
      acc.Pairwise (fun a b => lt a b = false) →
      (List.foldl (fun acc x => insertDesc lt x acc) acc l).Pairwise
          (fun a b => lt a b = false) ∧
        ∀ p : α → Bool,
          (∀ a ∈ acc ++ l, ∀ b ∈ acc ++ l, p a = true → p b = true → v a = v b) →
          (List.foldl (fun acc x => insertDesc lt x acc) acc l).filter p =
            acc.filter p ++ l.filter p := by
  intro l
  induction l with
  | nil =>
    intro acc _ hacc
    exact ⟨hacc, fun p _ => by simp⟩
  | cons x xs ih =>
    intro acc compat hacc
    have hmemins : ∀ a ∈ insertDesc lt x acc, a ∈ acc ++ x :: xs := by
      intro a ha
      have : a ∈ x :: acc := (insertDesc_perm lt x acc).mem_iff.mp ha
      rcases List.mem_cons.mp this with rfl | h
      · simp
      · simp [h]
    have hmemxs : ∀ a ∈ xs, a ∈ acc ++ x :: xs := fun a ha => by simp [ha]
    have compat' : ∀ a ∈ insertDesc lt x acc ++ xs, ∀ b ∈ insertDesc lt x acc ++ xs,
        (lt a b = true ↔ v a < v b) := by
      intro a ha b hb
      rcases List.mem_append.mp ha with ha' | ha' <;>
        rcases List.mem_append.mp hb with hb' | hb'
      · exact compat a (hmemins a ha') b (hmemins b hb')
      · exact compat a (hmemins a ha') b (hmemxs b hb')
      · exact compat a (hmemxs a ha') b (hmemins b hb')
      · exact compat a (hmemxs a ha') b (hmemxs b hb')
    have compatx : ∀ a ∈ x :: acc, ∀ b ∈ x :: acc, (lt a b = true ↔ v a < v b) := by
      intro a ha b hb
      have h1 : ∀ c, c ∈ x :: acc → c ∈ acc ++ x :: xs := by
        intro c hc
        rcases List.mem_cons.mp hc with rfl | h
        · simp
        · simp [h]
      exact compat a (h1 a ha) b (h1 b hb)
    have hacc' := insertDesc_pairwise lt v x acc compatx hacc
    obtain ⟨hp, hf⟩ := ih (insertDesc lt x acc) compat' hacc'
    refine ⟨hp, fun p hcl => ?_⟩
    have hclins : ∀ a ∈ insertDesc lt x acc ++ xs, ∀ b ∈ insertDesc lt x acc ++ xs,
        p a = true → p b = true → v a = v b := by
      intro a ha b hb
      rcases List.mem_append.mp ha with ha' | ha' <;>
        rcases List.mem_append.mp hb with hb' | hb'
      · exact hcl a (hmemins a ha') b (hmemins b hb')
      · exact hcl a (hmemins a ha') b (hmemxs b hb')
      · exact hcl a (hmemxs a ha') b (hmemins b hb')
      · exact hcl a (hmemxs a ha') b (hmemxs b hb')
    have hstep := hf p hclins
    have hone : (insertDesc lt x acc).filter p =
        if p x then acc.filter p ++ [x] else acc.filter p := by
      refine insertDesc_filter lt v x acc p compatx hacc ?_
      intro a ha hpa hpx
      exact hcl a (by simp [ha]) x (by simp) hpa hpx
    rw [List.foldl_cons] at *
    rw [hstep, hone, List.filter_cons]
    by_cases hpx : p x = true
    · simp [hpx]
    · simp [Bool.eq_false_iff.mpr hpx]

theorem sortDesc_props {α : Type} (lt : α → α → Bool) (v : α → ℝ) (l : List α)
    (compat : ∀ a ∈ l, ∀ b ∈ l, (lt a b = true ↔ v a < v b)) :
    (sortDesc lt l).Pairwise (fun a b => lt a b = false) ∧
      ∀ p : α → Bool, (∀ a ∈ l, ∀ b ∈ l, p a = true → p b = true → v a = v b) →
        (sortDesc lt l).filter p = l.filter p := by
  have h := foldl_insertDesc_props lt v l [] (by simpa using compat) List.Pairwise.nil
  rw [sortDesc]
  exact ⟨h.1, fun p hcl => by simpa using h.2 p (by simpa using hcl)⟩

/-! ## Scores and the real cosine -/

theorem sval_nonneg (s : Score) : 0 ≤ s.sval :=
  div_nonneg (Nat.cast_nonneg _) (Real.sqrt_nonneg _)

/-- Cross-multiplied comparison agrees with comparison of the real score
values when both denominators are positive. -/
theorem scoreLtB_iff (s t : Score) (hs : 0 < s.den) (ht : 0 < t.den) :
    (scoreLtB s t = true ↔ s.sval < t.sval) := by
  rw [scoreLtB, decide_eq_true_eq, Score.sval, Score.sval]
  have hs' : (0 : ℝ) < Real.sqrt s.den := Real.sqrt_pos.mpr (by exact_mod_cast hs)
  have ht' : (0 : ℝ) < Real.sqrt t.den := Real.sqrt_pos.mpr (by exact_mod_cast ht)
  rw [div_lt_div_iff₀ hs' ht']
  have key : ((s.num : ℝ) * Real.sqrt t.den < (t.num : ℝ) * Real.sqrt s.den) ↔
      ((s.num : ℝ) ^ 2 * (t.den : ℝ) < (t.num : ℝ) ^ 2 * (s.den : ℝ)) := by
    rw [← pow_lt_pow_iff_left₀ (by positivity) (by positivity) (two_ne_zero), mul_pow,
      mul_pow, Real.sq_sqrt (Nat.cast_nonneg t.den), Real.sq_sqrt (Nat.cast_nonneg s.den)]
  rw [key]
  constructor
  · intro h
    exact_mod_cast h
  · intro h
    exact_mod_cast h

/-- Cross-multiplied equality agrees with equality of the real score values
when both denominators are positive. -/
theorem scoreEqB_iff (s t : Score) (hs : 0 < s.den) (ht : 0 < t.den) :
    (scoreEqB s t = true ↔ s.sval = t.sval) := by
  rw [scoreEqB, decide_eq_true_eq, Score.sval, Score.sval]
  have hs' : (0 : ℝ) < Real.sqrt s.den := Real.sqrt_pos.mpr (by exact_mod_cast hs)
  have ht' : (0 : ℝ) < Real.sqrt t.den := Real.sqrt_pos.mpr (by exact_mod_cast ht)
  rw [div_eq_div_iff (ne_of_gt hs') (ne_of_gt ht')]
  have key : ((s.num : ℝ) * Real.sqrt t.den = (t.num : ℝ) * Real.sqrt s.den) ↔
      ((s.num : ℝ) ^ 2 * (t.den : ℝ) = (t.num : ℝ) ^ 2 * (s.den : ℝ)) := by
    rw [← pow_left_inj₀ (by positivity) (by positivity) (two_ne_zero), mul_pow,
      mul_pow, Real.sq_sqrt (Nat.cast_nonneg t.den), Real.sq_sqrt (Nat.cast_nonneg s.den)]
  rw [key]
  constructor
  · intro h
    exact_mod_cast h
  · intro h
    exact_mod_cast h

theorem sval_pos_iff (s : Score) (hden : 0 < s.den) : (0 < s.sval ↔ 0 < s.num) := by
  rw [Score.sval]
  constructor
  · intro h
    by_contra hn
    have : s.num = 0 := by omega
    rw [this] at h
    simp at h
  · intro h
    exact div_pos (by exact_mod_cast h) (Real.sqrt_pos.mpr (by exact_mod_cast hden))

theorem cosineR_eq (q d : List Token) :
    cosineR q d = (dotCount q d : ℝ) / (normVal q * normVal d) := by
  rw [cosineR, dotCount]
  push_cast
  rw [Finset.sum_div]
  refine Finset.sum_congr rfl fun t _ => ?_
  rw [weight, weight, div_mul_div_comm]

theorem cosineR_nonneg (q d : List Token) : 0 ≤ cosineR q d :=
  Finset.sum_nonneg fun t _ => mul_nonneg (weight_nonneg q t) (weight_nonneg d t)

/-- The real cosine of the source is strictly positive exactly when the dot
product of the raw count vectors is. -/
theorem cosineR_pos_iff (q d : List Token) :
    (0 < cosineR q d ↔ 0 < dotCount q d) := by
  rw [cosineR_eq]
  have hn : (0 : ℝ) < normVal q * normVal d := mul_pos (normVal_pos q) (normVal_pos d)
  constructor
  · intro h
    have : (0 : ℝ) < (dotCount q d : ℝ) := by
      by_contra hc
      have : (dotCount q d : ℝ) / (normVal q * normVal d) ≤ 0 :=
        div_nonpos_of_nonpos_of_nonneg (not_lt.mp hc) (le_of_lt hn)
      linarith
    exact_mod_cast this
  · intro h
    exact div_pos (by exact_mod_cast h) hn

theorem mkScore_den_pos (q d : List Token) (hq : q ≠ []) (hd : d ≠ []) :
    0 < (mkScore q d).den := by
  rw [mkScore]
  have h1 : sumSq q ≠ 0 := fun h => hq ((sumSq_eq_zero_iff q).mp h)
  have h2 : sumSq d ≠ 0 := fun h => hd ((sumSq_eq_zero_iff d).mp h)
  exact Nat.mul_pos (Nat.pos_of_ne_zero h1) (Nat.pos_of_ne_zero h2)

/-- For non-empty token lists the real value of the integer score is the
real cosine. -/
theorem sval_mkScore (q d : List Token) (hq : q ≠ []) (hd : d ≠ []) :
    (mkScore q d).sval = cosineR q d := by
  have h1 : sumSq q ≠ 0 := fun h => hq ((sumSq_eq_zero_iff q).mp h)
  have h2 : sumSq d ≠ 0 := fun h => hd ((sumSq_eq_zero_iff d).mp h)
  rw [Score.sval, mkScore, cosineR_eq, normVal, normVal, if_neg h1, if_neg h2]
  simp only [Nat.cast_mul]
  rw [Real.sqrt_mul (Nat.cast_nonneg _)]

/-- Every stored entry whose real cosine against the query is not strictly
positive is filtered out; if that holds for all entries, the search returns
the empty list. -/
theorem similaritySearch_eq_nil_of_nonpos (store : List VectorizedDocument)
    (q : String) (k : ℕ)
    (h : ∀ d ∈ store, cosineR (tokenize q) d.tokens ≤ 0) :
    similaritySearch store q k = [] := by
  rw [similaritySearch]
  by_cases htoks : (tokenize q).isEmpty = true
  · simp [htoks]
  · have hres : searchRes store (tokenize q) k = [] := by
      rw [searchRes, List.filter_eq_nil_iff]
      intro pr hpr
      have hmem1 : pr ∈ sortDesc (fun a b => scoreLtB a.1 b.1) (scoredOf store (tokenize q)) :=
        List.mem_of_mem_take hpr
      have hmem2 : pr ∈ scoredOf store (tokenize q) :=
        (sortDesc_perm _ _).subset hmem1
      rw [scoredOf, List.mem_map] at hmem2
      obtain ⟨d, hd, rfl⟩ := hmem2
      have hnp : ¬ 0 < cosineR (tokenize q) d.tokens := not_lt.mpr (h d hd)
      have hdot : ¬ 0 < dotCount (tokenize q) d.tokens := fun hc =>
        hnp ((cosineR_pos_iff _ _).mpr hc)
      simp [mkScore]
      omega
    simp [htoks, hres]

/-- C6: retrieval degrades to an empty value, never an exception.
Constructing the pipeline over a non-existent corpus path succeeds with an
empty index and all retrievals on it return an empty passage list; a query
with empty tokenization retrieves nothing; and when no stored entry scores
strictly above zero the passage list is empty as well.  The model is total,
so each case is a returned value, not an exception. -/
theorem c6_retrieval_degrades :
    (∀ (fs : FileSystem) (path : String) (cs ov : ℕ), fs.lookup path = none →
        mkPipeline fs path cs ov = some ⟨path, cs, ov, []⟩ ∧
          ∀ q k, retrieve ⟨path, cs, ov, []⟩ q k = ⟨q, []⟩) ∧
      (∀ (p : RAGPipeline) (q : String) (k : ℕ), tokenize q = [] →
        retrieve p q k = ⟨q, []⟩) ∧
      ∀ (p : RAGPipeline) (q : String) (k : ℕ),
        (∀ d ∈ p.store, cosineR (tokenize q) d.tokens ≤ 0) →
        retrieve p q k = ⟨q, []⟩ := by
  refine ⟨fun fs path cs ov h => ⟨?_, fun q k => ?_⟩, fun p q k h => ?_, fun p q k h => ?_⟩
  · rw [mkPipeline]
    simp [h]
  · rw [retrieve, similaritySearch_eq_nil_of_nonpos]
    intro d hd
    exact absurd hd (List.not_mem_nil d)
  · rw [retrieve, similaritySearch]
    simp [h]
  · rw [retrieve, similaritySearch_eq_nil_of_nonpos p.store q k h]

theorem c6_retrieval_degrades_witness :
    mkPipeline [] "kb.txt" 450 60 = some ⟨"kb.txt", 450, 60, []⟩ ∧
      retrieve ⟨"kb.txt", 450, 60, []⟩ "fever" 3 = ⟨"fever", []⟩ ∧
      retrieve ⟨"kb.txt", 450, 60, []⟩ "" 3 = ⟨"", []⟩ := by
  obtain ⟨h1, h2, h3⟩ := c6_retrieval_degrades
  obtain ⟨ha, hb⟩ := h1 [] "kb.txt" 450 60 rfl
  exact ⟨ha, hb "fever" 3, h2 ⟨"kb.txt", 450, 60, []⟩ "" 3 (by decide)⟩

/-- Every index state reachable through `add_documents` satisfies the
hypothesis of the search theorem: stored documents have non-empty token
lists (chunks that tokenize to nothing are dropped). -/
theorem addDocuments_wf :
    ∀ (chunks : List DocumentChunk) (store : List VectorizedDocument),
      (∀ d ∈ store, d.tokens ≠ []) →
      ∀ d ∈ addDocuments store chunks, d.tokens ≠ [] := by
  intro chunks
  induction chunks with
  | nil => intro store h; exact h
  | cons c cs ih =>
    intro store h
    rw [addDocuments, List.foldl_cons]
    refine ih _ ?_
    by_cases hc : (tokenize c.text).isEmpty = true
    · simpa [hc] using h
    · simp only [hc, Bool.false_eq_true, if_false]
      intro d hd
      rcases List.mem_append.mp hd with hd' | hd'
      · exact h d hd'
      · rcases List.mem_singleton.mp hd' with rfl
        simpa [List.isEmpty_iff] using hc

theorem mem_scoredOf (store : List VectorizedDocument) (toks : List Token)
    (pr : Score × DocumentChunk) :
    pr ∈ scoredOf store toks ↔
      ∃ d ∈ store, pr = (mkScore toks d.tokens, d.chunk) := by
  rw [scoredOf, List.mem_map]
  constructor
  · rintro ⟨d, hd, rfl⟩
    exact ⟨d, hd, rfl⟩
  · rintro ⟨d, hd, rfl⟩
    exact ⟨d, hd, rfl⟩

theorem searchRes_subset (store : List VectorizedDocument) (toks : List Token)
    (k : ℕ) : ∀ pr ∈ searchRes store toks k, pr ∈ scoredOf store toks := by
  intro pr hpr
  rw [searchRes] at hpr
  have h1 := List.mem_of_mem_filter hpr
  have h2 := List.mem_of_mem_take h1
  exact (sortDesc_perm _ _).subset h2

/-- C1: with a non-empty query tokenization, `similarity_search` returns
the second components of `searchRes` (score-chunk pairs); `searchRes` has
at most `k` elements; every returned pair comes from a stored entry whose
real cosine against the query vector is strictly positive; the pairs are
ordered by non-increasing real score; and within every score class the
returned pairs are an in-order prefix of the scored entries in insertion
order (stable descending sort, ties broken by insertion order). -/
theorem c1_similarity_search (store : List VectorizedDocument) (q : String) (k : ℕ)
    (hwf : ∀ d ∈ store, d.tokens ≠ []) (hq : tokenize q ≠ []) :
    similaritySearch store q k = (searchRes store (tokenize q) k).map Prod.snd ∧
      (searchRes store (tokenize q) k).length ≤ k ∧
      (∀ pr ∈ searchRes store (tokenize q) k,
        ∃ d ∈ store, pr = (mkScore (tokenize q) d.tokens, d.chunk) ∧
          0 < cosineR (tokenize q) d.tokens) ∧
      (searchRes store (tokenize q) k).Pairwise
        (fun a b => Score.sval b.1 ≤ Score.sval a.1) ∧
      ∀ s ∈ (scoredOf store (tokenize q)).map Prod.fst,
        ∃ t, (searchRes store (tokenize q) k).filter (fun pr => scoreEqB pr.1 s) ++ t =
          (scoredOf store (tokenize q)).filter (fun pr => scoreEqB pr.1 s) := by
  set toks := tokenize q with htoks
  set scored := scoredOf store toks with hscored
  set lt : Score × DocumentChunk → Score × DocumentChunk → Bool :=
    fun a b => scoreLtB a.1 b.1 with hlt
  set v : Score × DocumentChunk → ℝ := fun pr => Score.sval pr.1 with hv
  have hden : ∀ pr ∈ scored, 0 < pr.1.den := by
    intro pr hpr
    obtain ⟨d, hd, rfl⟩ := (mem_scoredOf store toks pr).mp hpr
    exact mkScore_den_pos toks d.tokens hq (hwf d hd)
  have compat : ∀ a ∈ scored, ∀ b ∈ scored, (lt a b = true ↔ v a < v b) := by
    intro a ha b hb
    exact scoreLtB_iff a.1 b.1 (hden a ha) (hden b hb)
  obtain ⟨hpair, hfilter⟩ := sortDesc_props lt v scored compat
  have hsub : ∀ pr ∈ searchRes store toks k, pr ∈ scored := searchRes_subset store toks k
  have hpos : ∀ pr ∈ searchRes store toks k, 0 < pr.1.num := by
    intro pr hpr
    have := List.of_mem_filter hpr
    simpa using this
  refine ⟨?_, ?_, ?_, ?_, ?_⟩
  · rw [similaritySearch]
    have : toks.isEmpty = false := by
      cases h : toks with
      | nil => exact absurd h hq
      | cons a l => rfl
    simp only [← htoks, this, Bool.false_eq_true, if_false]
  · exact le_trans (List.length_filter_le _ _) (List.length_take_le _ _)
  · intro pr hpr
    obtain ⟨d, hd, rfl⟩ := (mem_scoredOf store toks pr).mp (hsub pr hpr)
    refine ⟨d, hd, rfl, ?_⟩
    rw [cosineR_pos_iff]
    have := hpos _ hpr
    simpa [mkScore] using this
  · have hsl : List.Sublist (searchRes store toks k) (sortDesc lt scored) := by
      rw [searchRes]
      exact (List.filter_sublist _).trans (List.take_sublist _ _)
    have hp2 : (searchRes store toks k).Pairwise (fun a b => lt a b = false) :=
      hpair.sublist hsl
    refine hp2.imp_of_mem ?_
    intro a b ha hb hab
    have hamem : a ∈ scored := hsub a ha
    have hbmem : b ∈ scored := hsub b hb
    have : ¬ (v a < v b) := fun hc => by
      rw [(compat a hamem b hbmem).mpr hc] at hab
      exact Bool.true_eq_false.mp hab
    exact not_lt.mp this
  · intro s hs
    rw [List.mem_map] at hs
    obtain ⟨pr0, hpr0, rfl⟩ := hs
    have hsden : 0 < pr0.1.den := hden pr0 hpr0
    set p : Score × DocumentChunk → Bool := fun pr => scoreEqB pr.1 pr0.1 with hp
    have hcoh : ∀ a ∈ scored, ∀ b ∈ scored, p a = true → p b = true → v a = v b := by
      intro a ha b hb hpa hpb
      have h1 := (scoreEqB_iff a.1 pr0.1 (hden a ha) hsden).mp hpa
      have h2 := (scoreEqB_iff b.1 pr0.1 (hden b hb) hsden).mp hpb
      exact h1.trans h2.symm
    have hstab : (sortDesc lt scored).filter p = scored.filter p := hfilter p hcoh
    by_cases hsv : 0 < pr0.1.sval
    · -- the whole class is positively scored, so the `score > 0` filter keeps it
      have hpp : ∀ a ∈ List.take k (sortDesc lt scored),
          (p a && decide (0 < a.1.num)) = p a := by
        intro a ha
        have hamem : a ∈ scored := (sortDesc_perm _ _).subset (List.mem_of_mem_take ha)
        by_cases hpa : p a = true
        · have heq := (scoreEqB_iff a.1 pr0.1 (hden a hamem) hsden).mp hpa
          have : 0 < a.1.num := by
            rw [← sval_pos_iff a.1 (hden a hamem), heq]
            exact hsv
          simp [hpa, this]
        · simp [Bool.eq_false_iff.mpr hpa]
      have heq1 : (searchRes store toks k).filter p =
          (List.take k (sortDesc lt scored)).filter p := by
        rw [searchRes, List.filter_filter]
        exact List.filter_congr hpp
      refine ⟨(List.drop k (sortDesc lt scored)).filter p, ?_⟩
      rw [heq1, ← List.filter_append, List.take_append_drop, hstab]
    · -- the class is not positively scored, so nothing of it is returned
      have hnone : (searchRes store toks k).filter p = [] := by
        rw [List.filter_eq_nil_iff]
        intro pr hpr hppr
        have hamem : pr ∈ scored := hsub pr hpr
        have heq := (scoreEqB_iff pr.1 pr0.1 (hden pr hamem) hsden).mp hppr
        have : 0 < pr.1.sval := (sval_pos_iff pr.1 (hden pr hamem)).mpr (hpos pr hpr)
        rw [heq] at this
        exact hsv this
      exact ⟨scored.filter p, by rw [hnone]; rfl⟩

theorem c1_similarity_search_witness :
    similaritySearch [⟨⟨"1", "high fever", []⟩, ["fever".data]⟩] "fever" 2 =
        (searchRes [⟨⟨"1", "high fever", []⟩, ["fever".data]⟩]
          (tokenize "fever") 2).map Prod.snd ∧
      (searchRes [⟨⟨"1", "high fever", []⟩, ["fever".data]⟩]
          (tokenize "fever") 2).length ≤ 2 := by
  obtain ⟨h1, h2, -⟩ :=
    c1_similarity_search [⟨⟨"1", "high fever", []⟩, ["fever".data]⟩] "fever" 2
      (by decide) (by decide)
  exact ⟨h1, h2⟩

/-! ## Words, joining, and the chunk windows -/

theorem splitWsGo_words_ok :
    ∀ (l buf : List Char), (∀ c ∈ buf, isWsChar c = false) →
      ∀ w ∈ splitWsGo buf l, w ≠ [] ∧ ∀ c ∈ w, isWsChar c = false := by
  intro l
  induction l with
  | nil =>
    intro buf hbuf w hw
    rw [splitWsGo] at hw
    by_cases hb : buf.isEmpty = true
    · rw [if_pos hb] at hw
      exact absurd hw (List.not_mem_nil w)
    · rw [if_neg hb] at hw
      rcases List.mem_cons.mp hw with rfl | h
      · refine ⟨fun hc => hb ?_, fun c hc => hbuf c (List.mem_reverse.mp hc)⟩
        rw [List.isEmpty_iff, ← List.reverse_eq_nil_iff]
        exact hc
      · exact absurd h (List.not_mem_nil w)
  | cons c rest ih =>
    intro buf hbuf w hw
    rw [splitWsGo] at hw
    by_cases hc : isWsChar c = true
    · rw [if_pos hc] at hw
      by_cases hb : buf.isEmpty = true
      · rw [if_pos hb] at hw
        exact ih [] (by simp) w hw
      · rw [if_neg hb] at hw
        rcases List.mem_cons.mp hw with rfl | h
        · refine ⟨fun hcon => hb ?_, fun d hd => hbuf d (List.mem_reverse.mp hd)⟩
          rw [List.isEmpty_iff, ← List.reverse_eq_nil_iff]
          exact hcon
        · exact ih [] (by simp) w h
    · rw [if_neg hc] at hw
      refine ih (c :: buf) ?_ w hw
      intro d hd
      rcases List.mem_cons.mp hd with rfl | h
      · exact Bool.eq_false_iff.mpr hc
      · exact hbuf d h

theorem splitWsGo_through_word :
    ∀ (w l buf : List Char), (∀ c ∈ w, isWsChar c = false) →
      splitWsGo buf (w ++ l) = splitWsGo (w.reverse ++ buf) l := by
  intro w
  induction w with
  | nil => intro l buf _; simp
  | cons c w' ih =>
    intro l buf hw
    have hc : isWsChar c = false := hw c (by simp)
    rw [List.cons_append, splitWsGo, if_neg (by simp [hc])]
    rw [ih l (c :: buf) (fun d hd => hw d (by simp [hd]))]
    congr 1
    simp

theorem splitWs_joinSpace :
    ∀ ws : List (List Char),
      (∀ w ∈ ws, w ≠ [] ∧ ∀ c ∈ w, isWsChar c = false) →
      splitWs (joinSpace ws) = ws
  | [] => fun _ => rfl
  | [w] => by
    intro h
    obtain ⟨hne, hch⟩ := h w (by simp)
    rw [joinSpace, splitWs, ← List.append_nil w, splitWsGo_through_word w [] [] hch]
    rw [splitWsGo]
    rw [if_neg (by simp [List.isEmpty_iff, hne])]
    simp
  | w :: w2 :: ws' => by
    intro h
    obtain ⟨hne, hch⟩ := h w (by simp)
    have hjoin : joinSpace (w :: w2 :: ws') = w ++ ' ' :: joinSpace (w2 :: ws') := rfl
    rw [hjoin, splitWs, splitWsGo_through_word w (' ' :: joinSpace (w2 :: ws')) [] hch]
    rw [splitWsGo, if_pos (by decide)]
    rw [if_neg (by simp [List.isEmpty_iff, hne])]
    have hrest := splitWs_joinSpace (w2 :: ws') (fun u hu => h u (by simp [hu]))
    rw [splitWs] at hrest
    rw [hrest]
    simp

theorem splitWsGo_all_ws :
    ∀ (t buf : List Char), (∀ c ∈ t, isWsChar c = true) →
      splitWsGo buf t = if buf.isEmpty then [] else [buf.reverse] := by
  intro t
  induction t with
  | nil => intro buf _; rfl
  | cons c t' ih =>
    intro buf ht
    rw [splitWsGo, if_pos (ht c (by simp))]
    have hrec := ih [] (fun d hd => ht d (by simp [hd]))
    rw [hrec]
    by_cases hb : buf.isEmpty = true
    · rw [if_pos hb, if_pos hb]
      rfl
    · rw [if_neg hb, if_neg hb]
      rfl

theorem splitWsGo_append_ws :
    ∀ (l t buf : List Char), (∀ c ∈ t, isWsChar c = true) →
      splitWsGo buf (l ++ t) = splitWsGo buf l := by
  intro l
  induction l with
  | nil =>
    intro t buf ht
    rw [List.nil_append, splitWsGo_all_ws t buf ht, splitWsGo]
  | cons c l' ih =>
    intro t buf ht
    rw [List.cons_append, splitWsGo, splitWsGo]
    by_cases hc : isWsChar c = true
    · rw [if_pos hc, if_pos hc]
      by_cases hb : buf.isEmpty = true
      · rw [if_pos hb, if_pos hb, ih t [] ht]
      · rw [if_neg hb, if_neg hb, ih t [] ht]
    · rw [if_neg hc, if_neg hc, ih t (c :: buf) ht]

theorem splitWsGo_ws_lead :
    ∀ (a l : List Char), (∀ c ∈ a, isWsChar c = true) →
      splitWsGo [] (a ++ l) = splitWsGo [] l := by
  intro a
  induction a with
  | nil => intro l _; rfl
  | cons c a' ih =>
    intro l ha
    rw [List.cons_append, splitWsGo, if_pos (ha c (by simp))]
    rw [if_pos (show List.isEmpty ([] : List Char) = true from rfl)]
    exact ih l (fun d hd => ha d (by simp [hd]))

/-- Stripping leading and trailing whitespace does not change the word
list. -/
theorem splitWs_stripWs (l : List Char) : splitWs (stripWs l) = splitWs l := by
  have hdecomp1 : l = l.takeWhile isWsChar ++ l.dropWhile isWsChar :=
    (List.takeWhile_append_dropWhile (p := isWsChar) (l := l)).symm
  have hlead : ∀ c ∈ l.takeWhile isWsChar, isWsChar c = true := fun c hc =>
    List.mem_takeWhile_imp hc
  set l1 := l.dropWhile isWsChar with hl1
  have hdecomp2 : l1 = stripWs l ++ (l1.reverse.takeWhile isWsChar).reverse := by
    rw [stripWs, ← hl1]
    calc l1 = l1.reverse.reverse := (List.reverse_reverse l1).symm
      _ = (l1.reverse.takeWhile isWsChar ++ l1.reverse.dropWhile isWsChar).reverse := by
          rw [List.takeWhile_append_dropWhile]
      _ = (l1.reverse.dropWhile isWsChar).reverse ++
            (l1.reverse.takeWhile isWsChar).reverse := by
          rw [List.reverse_append]
  have htrail : ∀ c ∈ (l1.reverse.takeWhile isWsChar).reverse, isWsChar c = true :=
    fun c hc => List.mem_takeWhile_imp (List.mem_reverse.mp hc)
  calc splitWs (stripWs l)
      = splitWsGo [] (stripWs l ++ (l1.reverse.takeWhile isWsChar).reverse) := by
        rw [splitWs, splitWsGo_append_ws _ _ [] htrail]
    _ = splitWsGo [] l1 := by rw [← hdecomp2]
    _ = splitWsGo [] (l.takeWhile isWsChar ++ l1) := by
        rw [splitWsGo_ws_lead _ _ hlead]
    _ = splitWs l := by rw [← hdecomp1]; rfl

theorem get_mem_window (words : List (List Char)) (s e i : ℕ) (hi : i < words.length)
    (h1 : s ≤ i) (h2 : i < e) :
    words.get ⟨i, hi⟩ ∈ (words.drop s).take (e - s) := by
  have hlen2 : i - s < ((words.drop s).take (e - s)).length := by
    rw [List.length_take, List.length_drop]
    exact lt_min (by omega) (by omega)
  have key : ((words.drop s).take (e - s)).get ⟨i - s, hlen2⟩ = words.get ⟨i, hi⟩ := by
    simp [List.get_eq_getElem]
    congr 1
    omega
  rw [← key]
  exact List.get_mem _ _ hlen2

/-- The window loop of `chunk_text`, with `chunk_size = overlap + step` and
`step > 0`: it terminates with enough fuel, every word position from
`start` on lands in some emitted window, every window has at most
`chunk_size` words, and window entries are words of the input. -/
theorem chunkLoop_props (words : List (List Char)) (ov step : ℕ) (hstep : 0 < step) :
    ∀ (fuel start : ℕ), words.length - start < fuel →
      ∃ out, chunkLoop words (ov + step) ov fuel start = some out ∧
        (∀ i (hi : i < words.length), start ≤ i →
          ∃ c ∈ out, words.get ⟨i, hi⟩ ∈ c) ∧
        (∀ c ∈ out, c.length ≤ ov + step) ∧
        ∀ c ∈ out, ∀ w ∈ c, w ∈ words := by
  intro fuel
  induction fuel with
  | zero => intro start h; omega
  | succ n ih =>
    intro start hfuel
    by_cases hs : start < words.length
    · rw [chunkLoop, if_pos hs]
      by_cases he : words.length ≤ start + (ov + step)
      · -- final window: reaches the last word
        have hmin : min words.length (start + (ov + step)) = words.length :=
          min_eq_left he
        obtain ⟨out', hout', hcov', hsz', hmem'⟩ :=
          ih words.length (by omega)
        simp only [hmin, if_pos (le_refl words.length)]
        rw [hout']
        refine ⟨_, rfl, ?_, ?_, ?_⟩
        · intro i hi hsi
          refine ⟨(words.drop start).take (words.length - start), by simp, ?_⟩
          exact get_mem_window words start words.length i hi hsi hi
        · intro c hc
          rcases List.mem_cons.mp hc with rfl | hc'
          · rw [List.length_take, List.length_drop]
            exact le_trans (min_le_left _ _) (by omega)
          · exact hsz' c hc'
        · intro c hc w hw
          rcases List.mem_cons.mp hc with rfl | hc'
          · exact (List.drop_sublist _ _).subset
              ((List.take_sublist _ _).subset hw)
          · exact hmem' c hc' w hw
      · -- intermediate window: advance by `step`
        have hmin : min words.length (start + (ov + step)) = start + (ov + step) :=
          min_eq_right (by omega)
        have hnext : start + (ov + step) - ov = start + step := by omega
        obtain ⟨out', hout', hcov', hsz', hmem'⟩ := ih (start + step) (by omega)
        simp only [hmin, if_neg he, hnext]
        rw [hout']
        refine ⟨_, rfl, ?_, ?_, ?_⟩
        · intro i hi hsi
          by_cases hie : i < start + (ov + step)
          · refine ⟨(words.drop start).take (start + (ov + step) - start), by simp, ?_⟩
            exact get_mem_window words start (start + (ov + step)) i hi hsi hie
          · obtain ⟨c, hc, hwc⟩ := hcov' i hi (by omega)
            exact ⟨c, by simp [hc], hwc⟩
        · intro c hc
          rcases List.mem_cons.mp hc with rfl | hc'
          · rw [List.length_take, List.length_drop]
            exact le_trans (min_le_left _ _) (by omega)
          · exact hsz' c hc'
        · intro c hc w hw
          rcases List.mem_cons.mp hc with rfl | hc'
          · exact (List.drop_sublist _ _).subset
              ((List.take_sublist _ _).subset hw)
          · exact hmem' c hc' w hw
    · rw [chunkLoop, if_neg hs]
      refine ⟨[], rfl, ?_, by simp, by simp⟩
      intro i hi hsi
      omega

/-- C4: for every text and every `chunk_size = overlap + step` with
`step > 0`, `chunk_text` returns chunks such that every word of the text
appears in at least one chunk (splitting any chunk back into words recovers
them), and no chunk has more than `chunk_size` words. -/
theorem c4_chunk_coverage (text : String) (ov step : ℕ) (hstep : 0 < step) :
    ∃ chunks, chunkText text (ov + step) ov = some chunks ∧
      (∀ w ∈ splitWs text.data, ∃ c ∈ chunks, w ∈ splitWs c.data) ∧
      ∀ c ∈ chunks, (splitWs c.data).length ≤ ov + step := by
  rw [chunkText, chunkTextF]
  by_cases hsan : (stripWs text.data).isEmpty = true
  · refine ⟨[], by simp [hsan], ?_, by simp⟩
    intro w hw
    rw [← splitWs_stripWs text.data] at hw
    rw [List.isEmpty_iff] at hsan
    rw [hsan] at hw
    exact absurd hw (by rw [splitWs, splitWsGo]; exact List.not_mem_nil w)
  · simp only [hsan, Bool.false_eq_true, if_false]
    set words := splitWs (stripWs text.data) with hwords
    have hop : ∀ w ∈ words, w ≠ [] ∧ ∀ c ∈ w, isWsChar c = false :=
      fun w hw => splitWsGo_words_ok (stripWs text.data) [] (by simp) w hw
    obtain ⟨out, hout, hcov, hsz, hmem⟩ :=
      chunkLoop_props words ov step hstep (words.length + 1) 0 (by omega)
    rw [hout]
    refine ⟨out.map (fun w => String.mk (joinSpace w)), rfl, ?_, ?_⟩
    · intro w hw
      rw [← splitWs_stripWs text.data] at hw
      obtain ⟨⟨i, hi⟩, hget⟩ := List.mem_iff_get.mp hw
      obtain ⟨c, hc, hwc⟩ := hcov i hi (Nat.zero_le i)
      refine ⟨String.mk (joinSpace c), List.mem_map_of_mem _ hc, ?_⟩
      have hcwords : splitWs (String.mk (joinSpace c)).data = c := by
        show splitWs (joinSpace c) = c
        exact splitWs_joinSpace c (fun u hu => hop u (hmem c hc u hu))
      rw [hcwords, ← hget]
      exact hwc
    · intro cstr hcstr
      rw [List.mem_map] at hcstr
      obtain ⟨c, hc, rfl⟩ := hcstr
      have hcwords : splitWs (String.mk (joinSpace c)).data = c := by
        show splitWs (joinSpace c) = c
        exact splitWs_joinSpace c (fun u hu => hop u (hmem c hc u hu))
      rw [hcwords]
      exact hsz c hc

theorem c4_chunk_coverage_witness :
    ∃ chunks, chunkText "alpha beta gamma" 2 1 = some chunks := by
  obtain ⟨chunks, h1, -, -⟩ := c4_chunk_coverage "alpha beta gamma" 1 1 (by decide)
  exact ⟨chunks, h1⟩

end DemoAgent
